import Mathlib

/-!
Verification of the spritesheet layout and partitioning engine of the
factorio-utils repository, against its natural-language specification.

The definitions below are shallow embeddings of the Python source:

* `src/reduce_rotation.py` — `FRAME_COLUMN_MAPPING`, `get_grid_layout`,
  `get_divisors`, `find_split_layout`, `symmetric_indices`,
  `compute_selected_indices`, the layout choice of `reduce_single`, and
  `regroup_files`;
* `src/auto_merge_sprites.py` — its own `FRAME_COLUMN_MAPPING`,
  `get_columns` and `find_split_layout`.

Python integers are modelled as `Nat` (all quantities involved are
non-negative), `math.ceil(a / b)` on naturals as `ceil_div`,
`math.ceil(math.sqrt n)` as `ceil_sqrt` (the exact ceiling of the square
root, which is what the float computation produces on this domain), lists
as `List`, and functions that can raise `ValueError` as `Except String`.
PIL images are modelled by `Img`: a width, a height and a total pixel
function; `crop`, `paste` and `Image.new` get the matching semantics
(`crop` pads out-of-range reads with transparent pixels, `paste` with a
2-tuple box overwrites the rectangle, `Image.new` is fully transparent).
-/

/-- Max dimension for split/regroup (both source files set 8192). -/
def MAX_DIMENSION : Nat := 8192

/-- Ceiling division on naturals: `math.ceil(a / b)` for non-negative ints. -/
def ceil_div (a b : Nat) : Nat := (a + b - 1) / b

/-- Ceiling of the square root: `math.ceil(math.sqrt n)`. -/
def ceil_sqrt (n : Nat) : Nat :=
  if Nat.sqrt n * Nat.sqrt n = n then Nat.sqrt n else Nat.sqrt n + 1

/-- Row length mapping of `reduce_rotation.py` (its `FRAME_COLUMN_MAPPING`):
`{ total_frames: columns_per_row }` as an association list in source order. -/
def RR_FRAME_COLUMN_MAPPING : List (Nat × Nat) :=
  [(1, 1), (2, 2), (3, 3), (4, 2), (5, 3), (6, 3), (7, 4), (8, 4), (9, 3),
   (10, 5), (12, 4), (16, 4), (20, 5), (24, 6), (25, 8), (32, 8), (64, 8),
   (128, 16), (256, 16), (512, 16)]

/-- Row length mapping of `auto_merge_sprites.py` (its `FRAME_COLUMN_MAPPING`). -/
def AM_FRAME_COLUMN_MAPPING : List (Nat × Nat) :=
  [(1, 1), (2, 2), (3, 3), (4, 2), (5, 3), (6, 3), (7, 4), (8, 4), (9, 3),
   (10, 5), (12, 4), (16, 4), (20, 5), (24, 6), (32, 8), (64, 8), (128, 8),
   (256, 16), (512, 16), (1024, 32)]

/-- Dictionary lookup `mapping[n]` on an association list. -/
def tableLookup : List (Nat × Nat) → Nat → Option Nat
  | [], _ => none
  | (k, v) :: rest, n => if n = k then some v else tableLookup rest n

/-- Embedding of `reduce_rotation.get_grid_layout`: mapped column count when
`frame_count` is a key, else `ceil(sqrt(frame_count))`. -/
def get_grid_layout (frame_count : Nat) : Nat :=
  match tableLookup RR_FRAME_COLUMN_MAPPING frame_count with
  | some c => c
  | none => ceil_sqrt frame_count

/-- Embedding of `auto_merge_sprites.get_columns` (the warning print aside,
it returns exactly like `get_grid_layout` but over its own table). -/
def get_columns (frame_count : Nat) : Nat :=
  match tableLookup AM_FRAME_COLUMN_MAPPING frame_count with
  | some c => c
  | none => ceil_sqrt frame_count

/-- Body of the `while i * i <= n` loop of `get_divisors`: from counter `i`,
with enough fuel, collect `i` and `n / i` whenever `n % i == 0` (skipping
the duplicate when `i == n / i`). -/
def divisorsLoop (n : Nat) : Nat → Nat → List Nat
  | _, 0 => []
  | i, fuel + 1 =>
    if i * i ≤ n then
      (if n % i = 0 then if i ≠ n / i then [i, n / i] else [i] else []) ++
        divisorsLoop n (i + 1) fuel
    else []

/-- Insert into an ascending-sorted list (used to model Python `sorted`). -/
def insortAsc (x : Nat) : List Nat → List Nat
  | [] => [x]
  | y :: ys => if x ≤ y then x :: y :: ys else y :: insortAsc x ys

/-- Ascending sort, modelling Python `sorted(l)` (all lists we sort have no
duplicate elements, so stability is irrelevant and any correct sort agrees
with CPython's). -/
def sortAsc (l : List Nat) : List Nat := l.foldr insortAsc []

/-- Descending sort, modelling `sorted(l, reverse=True)`. -/
def sortDesc (l : List Nat) : List Nat := (sortAsc l).reverse

/-- Embedding of `get_divisors` (identical in both source files): all
divisors of `n`, sorted descending. -/
def get_divisors (n : Nat) : List Nat := sortDesc (divisorsLoop n 1 (n + 1))

/-- Embedding of Python `list(range(0, stop, step))` for `step ≥ 1`. -/
def rangeStep (stop step : Nat) : List Nat :=
  (List.range (ceil_div stop step)).map (fun k => k * step)

/-- Embedding of `reduce_rotation.symmetric_indices`: every `skip`-th index
from the start within the first half, the mirrored picks at the end, sorted. -/
def symmetric_indices (n skip : Nat) : List Nat :=
  sortAsc (rangeStep (n / 2) skip ++
    ((rangeStep (n / 2) skip).map (fun i => n - 1 - i)).reverse)

section SortLemmas

/-- Membership in `insortAsc` is membership in the cons. -/
theorem mem_insortAsc {x a : Nat} {l : List Nat} :
    a ∈ insortAsc x l ↔ a = x ∨ a ∈ l := by
  induction l with
  | nil => simp [insortAsc]
  | cons y ys ih =>
    by_cases h : x ≤ y
    · simp [insortAsc, h]
    · simp only [insortAsc, if_neg h, List.mem_cons, ih]
      tauto

/-- Membership in `sortAsc` is membership in the input list. -/
theorem mem_sortAsc {a : Nat} {l : List Nat} : a ∈ sortAsc l ↔ a ∈ l := by
  induction l with
  | nil => simp [sortAsc]
  | cons y ys ih =>
    show a ∈ insortAsc y (sortAsc ys) ↔ _
    rw [mem_insortAsc]
    simp [ih]

/-- Inserting keeps an ascending-sorted list sorted. -/
theorem sorted_insortAsc {x : Nat} {l : List Nat} (h : l.Sorted (· ≤ ·)) :
    (insortAsc x l).Sorted (· ≤ ·) := by
  induction l with
  | nil => simp [insortAsc]
  | cons y ys ih =>
    rw [List.sorted_cons] at h
    by_cases hxy : x ≤ y
    · rw [insortAsc, if_pos hxy, List.sorted_cons]
      refine ⟨?_, by rw [List.sorted_cons]; exact h⟩
      intro b hb
      rcases List.mem_cons.1 hb with rfl | hb
      · exact hxy
      · exact le_trans hxy (h.1 b hb)
    · rw [insortAsc, if_neg hxy, List.sorted_cons]
      refine ⟨?_, ih h.2⟩
      intro b hb
      rcases mem_insortAsc.1 hb with rfl | hb
      · exact le_of_not_le hxy
      · exact h.1 b hb

/-- The result of `sortAsc` is ascending-sorted. -/
theorem sorted_sortAsc (l : List Nat) : (sortAsc l).Sorted (· ≤ ·) := by
  induction l with
  | nil => simp [sortAsc]
  | cons y ys ih => exact sorted_insortAsc ih

/-- Inserting a fresh element preserves `Nodup`. -/
theorem nodup_insortAsc {x : Nat} {l : List Nat} (hx : x ∉ l) (h : l.Nodup) :
    (insortAsc x l).Nodup := by
  induction l with
  | nil => simp [insortAsc]
  | cons y ys ih =>
    rw [List.nodup_cons] at h
    by_cases hxy : x ≤ y
    · rw [insortAsc, if_pos hxy, List.nodup_cons, List.nodup_cons]
      exact ⟨fun hmem => hx hmem, h⟩
    · rw [insortAsc, if_neg hxy, List.nodup_cons]
      constructor
      · intro hmem
        rcases mem_insortAsc.1 hmem with heq | hmem
        · exact hx (by rw [← heq]; exact List.mem_cons_self y ys)
        · exact h.1 hmem
      · exact ih (fun hm => hx (List.mem_cons_of_mem y hm)) h.2

/-- Sorting a duplicate-free list yields a duplicate-free list. -/
theorem nodup_sortAsc {l : List Nat} (h : l.Nodup) : (sortAsc l).Nodup := by
  induction l with
  | nil => simp [sortAsc]
  | cons y ys ih =>
    rw [List.nodup_cons] at h
    exact nodup_insortAsc (fun hm => h.1 (mem_sortAsc.1 hm)) (ih h.2)

/-- Two strictly ascending lists with the same members are equal. -/
theorem eq_of_sorted_lt_of_mem_iff :
    ∀ {l₁ l₂ : List Nat}, l₁.Sorted (· < ·) → l₂.Sorted (· < ·) →
      (∀ x, x ∈ l₁ ↔ x ∈ l₂) → l₁ = l₂ := by
  intro l₁
  induction l₁ with
  | nil =>
    intro l₂ _ _ hmem
    cases l₂ with
    | nil => rfl
    | cons b t => exact absurd ((hmem b).2 (List.mem_cons_self b t)) (by simp)
  | cons a t₁ ih =>
    intro l₂ h₁ h₂ hmem
    cases l₂ with
    | nil => exact absurd ((hmem a).1 (List.mem_cons_self a t₁)) (by simp)
    | cons b t₂ =>
      rw [List.sorted_cons] at h₁ h₂
      have hab : a = b := by
        rcases List.mem_cons.1 ((hmem a).1 (List.mem_cons_self a t₁)) with h | h
        · exact h
        · rcases List.mem_cons.1 ((hmem b).2 (List.mem_cons_self b t₂)) with h' | h'
          · exact h'.symm
          · exact absurd (lt_trans (h₁.1 b h') (h₂.1 a h)) (lt_irrefl a)
      subst hab
      have htail : ∀ x, x ∈ t₁ ↔ x ∈ t₂ := by
        intro x
        constructor
        · intro hx
          rcases List.mem_cons.1 ((hmem x).1 (List.mem_cons_of_mem a hx)) with h | h
          · exact absurd (h ▸ h₁.1 x hx) (lt_irrefl x)
          · exact h
        · intro hx
          rcases List.mem_cons.1 ((hmem x).2 (List.mem_cons_of_mem a hx)) with h | h
          · exact absurd (h ▸ h₂.1 x hx) (lt_irrefl x)
          · exact h
      rw [ih h₁.2 h₂.2 htail]

/-- Ascending-sorted plus duplicate-free gives strictly ascending. -/
theorem sorted_lt_of_sorted_le_nodup {l : List Nat}
    (hs : l.Sorted (· ≤ ·)) (hn : l.Nodup) : l.Sorted (· < ·) :=
  (List.Pairwise.and hs hn).imp (fun h => lt_of_le_of_ne h.1 h.2)

end SortLemmas

section RangeStepLemmas

/-- Characterisation of `range(0, stop, step)` membership for `step ≥ 1`. -/
theorem mem_rangeStep {x stop step : Nat} (hs : 1 ≤ step) :
    x ∈ rangeStep stop step ↔ step ∣ x ∧ x < stop := by
  unfold rangeStep
  rw [List.mem_map]
  constructor
  · rintro ⟨k, hk, rfl⟩
    rw [List.mem_range] at hk
    refine ⟨Dvd.intro_left k rfl, ?_⟩
    have h1 : k + 1 ≤ ceil_div stop step := hk
    rw [ceil_div, Nat.le_div_iff_mul_le hs, Nat.succ_mul] at h1
    omega
  · rintro ⟨⟨k, rfl⟩, hlt⟩
    refine ⟨k, ?_, by rw [Nat.mul_comm]⟩
    rw [List.mem_range]
    show k + 1 ≤ ceil_div stop step
    rw [ceil_div, Nat.le_div_iff_mul_le hs, Nat.succ_mul]
    rw [Nat.mul_comm] at hlt
    omega

/-- The list `range(0, stop, step)` has no duplicates for `step ≥ 1`. -/
theorem nodup_rangeStep (stop step : Nat) (hs : 1 ≤ step) :
    (rangeStep stop step).Nodup := by
  unfold rangeStep
  refine List.Nodup.map_on ?_ (List.nodup_range (ceil_div stop step))
  intro a _ b _ hab
  exact Nat.eq_of_mul_eq_mul_right hs hab

/-- Python `range(0, stop, step)` equals filtering the multiples of `step`
out of `range(stop)`, for `step ≥ 1`. -/
theorem rangeStep_eq_filter (stop step : Nat) (hs : 1 ≤ step) :
    rangeStep stop step = (List.range stop).filter (fun x => x % step == 0) := by
  refine eq_of_sorted_lt_of_mem_iff ?_ ?_ ?_
  · unfold rangeStep
    refine List.Pairwise.map _ ?_ (List.pairwise_lt_range _)
    intro a b hab
    exact (Nat.mul_lt_mul_right hs).2 hab
  · exact List.Pairwise.filter _ (List.pairwise_lt_range stop)
  · intro x
    rw [mem_rangeStep hs, List.mem_filter, List.mem_range, beq_iff_eq,
      ← Nat.dvd_iff_mod_eq_zero]
    tauto

end RangeStepLemmas

section SymmetricIndicesLemmas

/-- Membership characterisation of `symmetric_indices`: a kept index is
either a front pick (a multiple of `skip` below `n // 2`) or the mirror
`n - 1 - i` of a front pick `i`. -/
theorem mem_symmetric_indices {x n skip : Nat} (hs : 1 ≤ skip) :
    x ∈ symmetric_indices n skip ↔
      (skip ∣ x ∧ x < n / 2) ∨ (∃ i, skip ∣ i ∧ i < n / 2 ∧ x = n - 1 - i) := by
  unfold symmetric_indices
  rw [mem_sortAsc, List.mem_append, List.mem_reverse, List.mem_map]
  constructor
  · rintro (h | ⟨i, hi, rfl⟩)
    · exact Or.inl ((mem_rangeStep hs).1 h)
    · rcases (mem_rangeStep hs).1 hi with ⟨hd, hlt⟩
      exact Or.inr ⟨i, hd, hlt, rfl⟩
  · rintro (h | ⟨i, hd, hlt, rfl⟩)
    · exact Or.inl ((mem_rangeStep hs).2 h)
    · exact Or.inr ⟨i, (mem_rangeStep hs).2 ⟨hd, hlt⟩, rfl⟩

/-- Front picks and mirror picks never collide, so the concatenation that
`symmetric_indices` sorts has no duplicates. -/
theorem nodup_symmetric_indices (n skip : Nat) (hs : 1 ≤ skip) :
    (symmetric_indices n skip).Nodup := by
  unfold symmetric_indices
  apply nodup_sortAsc
  refine List.Nodup.append (nodup_rangeStep _ _ hs) ?_ ?_
  · rw [List.nodup_reverse]
    refine List.Nodup.map_on ?_ (nodup_rangeStep _ _ hs)
    intro a ha b hb hab
    rcases (mem_rangeStep hs).1 ha with ⟨_, ha2⟩
    rcases (mem_rangeStep hs).1 hb with ⟨_, hb2⟩
    omega
  · intro a ha hmem
    rcases (mem_rangeStep hs).1 ha with ⟨_, ha2⟩
    rw [List.mem_reverse, List.mem_map] at hmem
    rcases hmem with ⟨i, hi, heq⟩
    rcases (mem_rangeStep hs).1 hi with ⟨_, hi2⟩
    omega

/-- Every selected index is below `n` (for `n ≥ 1`). -/
theorem mem_symmetric_indices_lt {x n skip : Nat} (hs : 1 ≤ skip)
    (hx : x ∈ symmetric_indices n skip) : x < n := by
  rcases (mem_symmetric_indices hs).1 hx with ⟨_, h⟩ | ⟨i, _, hi, rfl⟩
  · omega
  · omega

end SymmetricIndicesLemmas

section DivisorLemmas

/-- Every element the divisor loop collects divides `n` and is positive. -/
theorem divisorsLoop_sound (n : Nat) :
    ∀ fuel i, 1 ≤ i → ∀ d ∈ divisorsLoop n i fuel, d ∣ n ∧ 1 ≤ d := by
  intro fuel
  induction fuel with
  | zero => intro i _ d hd; simp [divisorsLoop] at hd
  | succ fuel ih =>
    intro i hi d hd
    rw [divisorsLoop] at hd
    by_cases hsq : i * i ≤ n
    · rw [if_pos hsq, List.mem_append] at hd
      rcases hd with hd | hd
      · by_cases hmod : n % i = 0
        · have hidvd : i ∣ n := Nat.dvd_of_mod_eq_zero hmod
          have hq : n / i ∣ n := Nat.div_dvd_of_dvd hidvd
          have hii : i ≤ i * i := Nat.le_mul_of_pos_left i (by omega)
          have hqpos : 1 ≤ n / i :=
            (Nat.le_div_iff_mul_le (by omega : 0 < i)).2 (by omega)
          rw [if_pos hmod] at hd
          by_cases hne : i ≠ n / i
          · rw [if_pos hne] at hd
            rcases List.mem_cons.1 hd with heq | hd
            · subst heq
              exact ⟨hidvd, hi⟩
            · rcases List.mem_cons.1 hd with heq | hd
              · subst heq
                exact ⟨hq, hqpos⟩
              · simp at hd
          · rw [if_neg hne] at hd
            rcases List.mem_cons.1 hd with heq | hd
            · subst heq
              exact ⟨hidvd, hi⟩
            · simp at hd
        · rw [if_neg hmod] at hd
          simp at hd
      · exact ih (i + 1) (by omega) d hd
    · rw [if_neg hsq] at hd
      simp at hd

/-- Soundness of `get_divisors`: members divide `n` and are positive. -/
theorem get_divisors_sound {n d : Nat} (hd : d ∈ get_divisors n) :
    d ∣ n ∧ 1 ≤ d := by
  unfold get_divisors sortDesc at hd
  rw [List.mem_reverse, mem_sortAsc] at hd
  exact divisorsLoop_sound n (n + 1) 1 (le_refl 1) d hd

/-- The divisor list always contains 1 when `n ≥ 1`. -/
theorem one_mem_get_divisors {n : Nat} (hn : 1 ≤ n) : 1 ∈ get_divisors n := by
  unfold get_divisors sortDesc
  rw [List.mem_reverse, mem_sortAsc]
  show 1 ∈ divisorsLoop n 1 (n + 1)
  rw [divisorsLoop, if_pos (by omega : 1 * 1 ≤ n), Nat.mod_one, if_pos rfl]
  rw [Nat.div_one]
  by_cases h1 : (1 : Nat) ≠ n
  · rw [if_pos h1]
    simp
  · rw [if_neg h1]
    simp

end DivisorLemmas

/-- First-success search: the value of the first element on which `f`
returns `some`, modelling a Python `for` loop that returns on success. -/
def firstSome {α β : Type} (f : α → Option β) : List α → Option β
  | [] => none
  | x :: xs =>
    match f x with
    | some b => some b
    | none => firstSome f xs

section FirstSomeLemmas

/-- A successful search exhibits an element on which `f` succeeds. -/
theorem firstSome_eq_some {α β : Type} {f : α → Option β} :
    ∀ {l : List α} {b : β}, firstSome f l = some b → ∃ a ∈ l, f a = some b := by
  intro l
  induction l with
  | nil => intro b h; simp [firstSome] at h
  | cons x xs ih =>
    intro b h
    rw [firstSome] at h
    revert h
    cases hx : f x with
    | some c =>
      intro h
      have hcb : some c = some b := h
      exact ⟨x, List.mem_cons_self x xs, by rw [hx, hcb]⟩
    | none =>
      intro h
      have hrest : firstSome f xs = some b := h
      rcases ih hrest with ⟨a, ha, hfa⟩
      exact ⟨a, List.mem_cons_of_mem x ha, hfa⟩

/-- A failed search means `f` fails on every element. -/
theorem firstSome_eq_none {α β : Type} {f : α → Option β} :
    ∀ {l : List α}, firstSome f l = none → ∀ a ∈ l, f a = none := by
  intro l
  induction l with
  | nil => intro _ a ha; simp at ha
  | cons x xs ih =>
    intro h a ha
    rw [firstSome] at h
    revert h
    cases hx : f x with
    | some c =>
      intro h
      have hcn : some c = (none : Option β) := h
      exact absurd hcn (by simp)
    | none =>
      intro h
      have hrest : firstSome f xs = none := h
      rcases List.mem_cons.1 ha with rfl | ha
      · exact hx
      · exact ih hrest a ha

end FirstSomeLemmas

/-- Inner scan of `find_split_layout` (`reduce_rotation.py` lines 77-83 and
the free-grid branch of `auto_merge_sprites.py` lines 143-151): for the
column candidate `cols = c0 + 1`, accept it when it divides
`frames_per_file`, the row count fits `max_rows`, and the pixel footprint
fits `MAX_DIMENSION` on both axes. -/
def splitColsCheck (frame_count frames_per_file max_rows width height c0 : Nat) :
    Option (Nat × Nat × Nat) :=
  let cols := c0 + 1
  if frames_per_file % cols ≠ 0 then none
  else
    let rows := frames_per_file / cols
    if rows ≤ max_rows then
      if cols * width ≤ MAX_DIMENSION ∧ rows * height ≤ MAX_DIMENSION then
        some (frame_count / frames_per_file, cols, rows)
      else none
    else none

/-- Body of the free-grid divisor loop shared by both `find_split_layout`
versions: skip `frames_per_file == frame_count`, then scan `cols` in
`range(1, min(frames_per_file, max_cols) + 1)`. -/
def splitTryFramesPerFile (frame_count width height max_cols max_rows
    frames_per_file : Nat) : Option (Nat × Nat × Nat) :=
  if frames_per_file = frame_count then none
  else
    firstSome (splitColsCheck frame_count frames_per_file max_rows width height)
      (List.range (min frames_per_file max_cols))

/-- Embedding of `reduce_rotation.find_split_layout`: `None` when a frame
exceeds `MAX_DIMENSION`, `None` when the natural layout fits, `None` when
the search fails, otherwise `(num_files, cols, rows)`. -/
def rr_find_split_layout (frame_count width height : Nat) :
    Option (Nat × Nat × Nat) :=
  let max_cols := MAX_DIMENSION / width
  let max_rows := MAX_DIMENSION / height
  if max_cols < 1 ∨ max_rows < 1 then none
  else
    let full_cols := get_grid_layout frame_count
    let full_rows := ceil_div frame_count full_cols
    if full_cols * width ≤ MAX_DIMENSION ∧ full_rows * height ≤ MAX_DIMENSION
    then none
    else
      firstSome
        (splitTryFramesPerFile frame_count width height max_cols max_rows)
        (get_divisors frame_count)

/-- Error message of the `FrameTooLarge` check in
`auto_merge_sprites.find_split_layout` (the Python message interpolates the
offending sizes; only its identity matters here). -/
def AM_FRAME_TOO_LARGE : String := "Frame size exceeds max dimension"

/-- Error message of the fixed-row-length width check. -/
def AM_ROW_LENGTH_TOO_WIDE : String :=
  "row_length times frame width exceeds max dimension"

/-- Error message when the fixed-row-length divisor search fails. -/
def AM_CANNOT_SPLIT_ROW_LENGTH : String :=
  "Cannot split frames with row_length to fit max dimension"

/-- Error message when the free-grid divisor search fails. -/
def AM_CANNOT_SPLIT : String := "Cannot split frames to fit max dimension"

/-- Body of the fixed-row-length divisor loop of
`auto_merge_sprites.find_split_layout` (lines 130-137). -/
def amFixedRowTry (frame_count height rl frames_per_file : Nat) :
    Option (Nat × Nat × Nat) :=
  if frames_per_file = frame_count then none
  else if frames_per_file % rl ≠ 0 then none
  else
    let rows := frames_per_file / rl
    if rows * height ≤ MAX_DIMENSION then
      some (frame_count / frames_per_file, rl, rows)
    else none

/-- Embedding of `auto_merge_sprites.find_split_layout` with its
`is_one_row` and `row_length` modes; raises (`Except.error`) where the
Python raises `ValueError`, returns `Except.ok none` for "no split needed"
and `Except.ok (some plan)` otherwise. -/
def am_find_split_layout (frame_count width height : Nat) (is_one_row : Bool)
    (row_length : Option Nat) : Except String (Option (Nat × Nat × Nat)) :=
  let max_cols := MAX_DIMENSION / width
  let max_rows := MAX_DIMENSION / height
  if max_cols < 1 ∨ max_rows < 1 then Except.error AM_FRAME_TOO_LARGE
  else if row_length = none ∧ is_one_row = true then
    if frame_count ≤ max_cols then Except.ok none
    else
      match firstSome
          (fun cpf => if cpf ≤ max_cols then some cpf else none)
          (get_divisors frame_count) with
      | some cpf => Except.ok (some (frame_count / cpf, cpf, 1))
      | none => Except.ok (some (1, 1, 1))
  else
    let full_cols :=
      match row_length with
      | some rl => rl
      | none => get_columns frame_count
    let full_rows := ceil_div frame_count full_cols
    if full_cols * width ≤ MAX_DIMENSION ∧ full_rows * height ≤ MAX_DIMENSION
    then Except.ok none
    else
      match row_length with
      | some rl =>
        if MAX_DIMENSION < rl * width then Except.error AM_ROW_LENGTH_TOO_WIDE
        else
          match firstSome (amFixedRowTry frame_count height rl)
              (get_divisors frame_count) with
          | some p => Except.ok (some p)
          | none => Except.error AM_CANNOT_SPLIT_ROW_LENGTH
      | none =>
        match firstSome
            (splitTryFramesPerFile frame_count width height max_cols max_rows)
            (get_divisors frame_count) with
        | some p => Except.ok (some p)
        | none => Except.error AM_CANNOT_SPLIT

/-- Concatenation of the lists produced for each element, modelling a
Python loop that extends an accumulator list. -/
def concatMapList {α β : Type} (f : α → List β) : List α → List β
  | [] => []
  | x :: xs => f x ++ concatMapList f xs

/-- The three values of the `--skip-type` CLI choice. -/
inductive SkipType
  | linear
  | rotation
  | animation
deriving DecidableEq

/-- Frames kept inside one rotation group (`reduce_rotation.py` lines
119-122 and line 230): the symmetric or plain every-`skip`-th rule. -/
def keepWithinRotation (animations_per_rotation skip : Nat)
    (symmetric : Bool) : List Nat :=
  if symmetric then symmetric_indices animations_per_rotation skip
  else rangeStep animations_per_rotation skip

/-- Rotation-mode selection of `compute_selected_indices` (lines 112-125):
for each group, the kept in-group offsets shifted by the group base. -/
def rotationSelect (total_frames animations_per_rotation skip : Nat)
    (symmetric : Bool) : List Nat :=
  concatMapList
    (fun r => (keepWithinRotation animations_per_rotation skip symmetric).map
      (fun a => r * animations_per_rotation + a))
    (List.range (total_frames / animations_per_rotation))

/-- Animation-mode selection of `compute_selected_indices` (lines 127-137):
keep every `skip`-th rotation group wholesale. -/
def animationSelect (total_frames rotations skip : Nat) : List Nat :=
  concatMapList
    (fun r => (List.range (total_frames / rotations)).map
      (fun a => r * (total_frames / rotations) + a))
    (rangeStep rotations skip)

/-- Embedding of `reduce_rotation.compute_selected_indices`. -/
def compute_selected_indices (total_frames skip : Nat) (skip_type : SkipType)
    (rotations animations_per_rotation : Option Nat) (symmetric : Bool) :
    Except String (List Nat) :=
  match skip_type with
  | SkipType.linear =>
    if symmetric then Except.ok (symmetric_indices total_frames skip)
    else Except.ok (rangeStep total_frames skip)
  | SkipType.rotation =>
    match animations_per_rotation with
    | none =>
      Except.error "skip_type rotation requires animations_per_rotation parameter"
    | some apr => Except.ok (rotationSelect total_frames apr skip symmetric)
  | SkipType.animation =>
    match rotations with
    | none => Except.error "skip_type animation requires rotations parameter"
    | some rots => Except.ok (animationSelect total_frames rots skip)

/-- Column count the composer in `reduce_single` picks for
`skip_type == "rotation"` (lines 228-233): the number of frames retained
per rotation group. -/
def rr_new_cols_rotation (animations_per_rotation skip : Nat)
    (symmetric : Bool) : Nat :=
  (keepWithinRotation animations_per_rotation skip symmetric).length

/-- RGBA pixel value. -/
abbrev RGBA := Nat × Nat × Nat × Nat

/-- Fully transparent pixel, the fill of `Image.new("RGBA", _, (0,0,0,0))`
and of out-of-range crops. -/
def TRANSPARENT : RGBA := (0, 0, 0, 0)

/-- Model of a PIL RGBA image: a size and a total pixel function (reads are
only meaningful below the size; the functions are total for convenience). -/
structure Img where
  width : Nat
  height : Nat
  px : Nat → Nat → RGBA

/-- Model of `Image.new("RGBA", (w, h), (0, 0, 0, 0))`. -/
def newImg (w h : Nat) : Img :=
  { width := w, height := h, px := fun _ _ => TRANSPARENT }

/-- Model of `img.crop((x, y, x + w, y + h))`: a `w × h` image reading the
source shifted by `(x, y)`, transparent beyond the source bounds. -/
def cropImg (img : Img) (x y w h : Nat) : Img :=
  { width := w, height := h,
    px := fun dx dy =>
      if dx < w ∧ dy < h ∧ x + dx < img.width ∧ y + dy < img.height then
        img.px (x + dx) (y + dy)
      else TRANSPARENT }

/-- Model of `base.paste(fr, (x, y))` for RGBA images without a mask: the
rectangle of `fr` overwrites `base`, alpha included (no blending). -/
def pasteImg (base fr : Img) (x y : Nat) : Img :=
  { width := base.width, height := base.height,
    px := fun u v =>
      if x ≤ u ∧ u < x + fr.width ∧ y ≤ v ∧ v < y + fr.height then
        fr.px (u - x) (v - y)
      else base.px u v }

/-- Frame extraction loop of `parse_spritesheet` (lines 191-197): crop cell
`(i % cols, i // cols)` for `i` in `range(total)`, skipping cells whose
origin falls outside the image. -/
def extractFrames (img : Img) (cols total fw fh : Nat) : List Img :=
  concatMapList
    (fun i =>
      let x := (i % cols) * fw
      let y := (i / cols) * fh
      if x < img.width ∧ y < img.height then [cropImg img x y fw fh] else [])
    (List.range total)

/-- Paste loop shared by `reduce_single` (lines 248-250) and
`regroup_files` (lines 314-316, 330-332): paste the frames at consecutive
cells in row-major order, `k` being the index of the first frame. -/
def pasteFramesFrom (canvas : Img) (frames : List Img) (k cols fw fh : Nat) :
    Img :=
  match frames with
  | [] => canvas
  | fr :: rest =>
    pasteFramesFrom (pasteImg canvas fr ((k % cols) * fw) ((k / cols) * fh))
      rest (k + 1) cols fw fh

/-- Compose a sheet: fresh transparent canvas of `cols*fw × rows*fh`, every
frame pasted at its row-major cell. -/
def composeSheet (frames : List Img) (cols rows fw fh : Nat) : Img :=
  pasteFramesFrom (newImg (cols * fw) (rows * fh)) frames 0 cols fw fh

/-- One entry of the `file_results` list consumed by `regroup_files`: the
in-memory reduced image, its frame geometry and its frame count (the
output-path component plays no role in the regrouping itself). -/
structure FileResult where
  img : Img
  fw : Nat
  fh : Nat
  count : Nat

/-- Frame extraction loop of `regroup_files` (lines 288-299): the column
count is recovered from the file's own pixel width, then `count` frames
are cropped in row-major order (no bounds guard in this loop). -/
def regroupExtract (fw fh : Nat) (f : FileResult) : List Img :=
  (List.range f.count).map
    (fun i =>
      cropImg f.img ((i % (f.img.width / fw)) * fw)
        ((i / (f.img.width / fw)) * fh) fw fh)

/-- Embedding of `reduce_rotation.regroup_files`: geometry check against
the first file, frame extraction, re-splitting, and composition of the
output sheet(s). `Except.error` models the raised `ValueError`; on success
the produced sheets are returned in output order. -/
def regroup_files (frames_per_rotation : Option Nat)
    (file_results : List FileResult) : Except String (List Img) :=
  match file_results with
  | [] => Except.ok []
  | first :: rest =>
    if rest.any (fun f => f.fw != first.fw || f.fh != first.fh) then
      Except.error "Frame size mismatch in regroup"
    else
      let fw := first.fw
      let fh := first.fh
      let all_frames := concatMapList (regroupExtract fw fh) (first :: rest)
      let total := all_frames.length
      match rr_find_split_layout total fw fh with
      | none =>
        let cols :=
          match frames_per_rotation with
          | some k => if k = 0 then get_grid_layout total else k
          | none => get_grid_layout total
        Except.ok [composeSheet all_frames cols (ceil_div total cols) fw fh]
      | some (num_files, cols, rows) =>
        let fpf := cols * rows
        Except.ok
          ((List.range num_files).map
            (fun i =>
              composeSheet ((all_frames.drop (i * fpf)).take fpf)
                cols rows fw fh))

/-- Linear selection rule as the specification words it: the indices
`{0, skip, 2·skip, …}` inside `[0, size)`, i.e. the multiples of `skip`
below `size`. Written from the spec for comparison with the code. -/
def linearRuleSpec (size skip : Nat) : List Nat :=
  (List.range size).filter (fun x => x % skip == 0)

/-- PerDirection policy as the specification words it: partition
`[0, total)` into `total / framesPerDirection` contiguous groups, apply
the linear or symmetric rule inside every group offset by the group base,
concatenate in group order. Written from the spec. -/
def perDirectionSelectSpec (total framesPerDirection skip : Nat)
    (symmetric : Bool) : List Nat :=
  concatMapList
    (fun g =>
      ((if symmetric then symmetric_indices framesPerDirection skip
        else linearRuleSpec framesPerDirection skip).map
        (fun a => g * framesPerDirection + a)))
    (List.range (total / framesPerDirection))

/-- Direction-skip policy as the specification words it: keep the groups
`{0, skip, 2·skip, …}` wholesale — every frame of a kept group, in order —
and drop the other groups entirely. Written from the spec. -/
def directionSkipSelectSpec (total directionCount skip : Nat) : List Nat :=
  concatMapList
    (fun g =>
      (List.range (total / directionCount)).map
        (fun a => g * (total / directionCount) + a))
    ((List.range directionCount).filter (fun g => g % skip == 0))

section TableLemmas

/-- A lookup misses when the key is none of the table keys. -/
theorem tableLookup_eq_none {l : List (Nat × Nat)} {n : Nat}
    (h : ∀ kv ∈ l, n ≠ kv.1) : tableLookup l n = none := by
  induction l with
  | nil => rfl
  | cons kv rest ih =>
    obtain ⟨k, v⟩ := kv
    rw [tableLookup, if_neg (h (k, v) (List.mem_cons_self _ _))]
    exact ih (fun kv hkv => h kv (List.mem_cons_of_mem _ hkv))

/-- Value of `ceil_sqrt` at the perfect square 1024. -/
theorem ceil_sqrt_1024 : ceil_sqrt 1024 = 32 := by
  have hsq : Nat.sqrt 1024 = 32 := by
    rw [show (1024 : Nat) = 32 * 32 from by norm_num]
    exact Nat.sqrt_eq 32
  rw [ceil_sqrt, hsq]
  norm_num

/-- Value of `ceil_sqrt` at the perfect square 25. -/
theorem ceil_sqrt_25 : ceil_sqrt 25 = 5 := by
  have hsq : Nat.sqrt 25 = 5 := by
    rw [show (25 : Nat) = 5 * 5 from by norm_num]
    exact Nat.sqrt_eq 5
  rw [ceil_sqrt, hsq]
  norm_num

end TableLemmas

/-- C8. `get_grid_layout` never raises (it is a total function here): on a
key of the static table it returns the mapped value, otherwise
`ceil(sqrt(frameCount))` — characterised below as the least `m` with
`frameCount ≤ m * m`; in particular it maps 5 to 3 columns, giving
`rows = ceil(5 / 3) = 2`. -/
theorem get_grid_layout_spec (n : Nat) :
    get_grid_layout n
        = ((tableLookup RR_FRAME_COLUMN_MAPPING n).getD (ceil_sqrt n)) ∧
    n ≤ ceil_sqrt n * ceil_sqrt n ∧
    (∀ m, n ≤ m * m → ceil_sqrt n ≤ m) ∧
    get_grid_layout 5 = 3 ∧ ceil_div 5 (get_grid_layout 5) = 2 := by
  refine ⟨?_, ?_, ?_, by decide, by decide⟩
  · cases h : tableLookup RR_FRAME_COLUMN_MAPPING n with
    | some c => rw [get_grid_layout, h]; rfl
    | none => rw [get_grid_layout, h]; rfl
  · rw [ceil_sqrt]
    by_cases heq : Nat.sqrt n * Nat.sqrt n = n
    · rw [if_pos heq, heq]
    · rw [if_neg heq]
      exact le_of_lt (Nat.lt_succ_sqrt n)
  · intro m hm
    rw [ceil_sqrt]
    by_cases heq : Nat.sqrt n * Nat.sqrt n = n
    · rw [if_pos heq]
      calc Nat.sqrt n ≤ Nat.sqrt (m * m) := Nat.sqrt_le_sqrt hm
        _ = m := Nat.sqrt_eq m
    · rw [if_neg heq]
      by_contra hcon
      push_neg at hcon
      have hms : m ≤ Nat.sqrt n := by omega
      have h1 : m * m ≤ Nat.sqrt n * Nat.sqrt n := Nat.mul_le_mul hms hms
      have h2 : Nat.sqrt n * Nat.sqrt n ≤ n := Nat.sqrt_le n
      omega

/-- C9 counterexample. The two frame-count tables disagree: at 128 columns
are 16 in `reduce_rotation.py` but 8 in `auto_merge_sprites.py`, and at 25
they are 8 versus the square-root fallback 5. -/
theorem grid_layout_tables_disagree_cex :
    get_grid_layout 128 = 16 ∧ get_columns 128 = 8 ∧
    get_grid_layout 25 = 8 ∧ get_columns 25 = 5 := by
  refine ⟨by decide, by decide, by decide, ?_⟩
  have hnone : tableLookup AM_FRAME_COLUMN_MAPPING 25 = none := by decide
  rw [get_columns, hnone, ceil_sqrt_25]

/-- C9 amended. Away from the two divergent frame counts 25 and 128, the
column resolvers of the two source files agree for every frame count. -/
theorem grid_layout_tables_agree (n : Nat) (h25 : n ≠ 25) (h128 : n ≠ 128) :
    get_grid_layout n = get_columns n := by
  by_cases hmem :
      n ∈ [1, 2, 3, 4, 5, 6, 7, 8, 9, 10, 12, 16, 20, 24, 25, 32, 64, 128,
        256, 512, 1024]
  · fin_cases hmem
    case _ => decide
    case _ => decide
    case _ => decide
    case _ => decide
    case _ => decide
    case _ => decide
    case _ => decide
    case _ => decide
    case _ => decide
    case _ => decide
    case _ => decide
    case _ => decide
    case _ => decide
    case _ => decide
    case _ => exact absurd rfl h25
    case _ => decide
    case _ => decide
    case _ => exact absurd rfl h128
    case _ => decide
    case _ => decide
    case _ =>
      have hnone : tableLookup RR_FRAME_COLUMN_MAPPING 1024 = none := by decide
      rw [get_grid_layout, hnone, ceil_sqrt_1024]
      decide
  · have hne : ∀ k : Nat,
        k ∈ [1, 2, 3, 4, 5, 6, 7, 8, 9, 10, 12, 16, 20, 24, 25, 32, 64, 128,
          256, 512, 1024] → n ≠ k := by
      intro k hk heq
      exact hmem (heq ▸ hk)
    have hrr : tableLookup RR_FRAME_COLUMN_MAPPING n = none := by
      apply tableLookup_eq_none
      intro kv hkv
      rw [RR_FRAME_COLUMN_MAPPING] at hkv
      simp only [List.mem_cons, List.not_mem_nil, or_false] at hkv
      rcases hkv with rfl | rfl | rfl | rfl | rfl | rfl | rfl | rfl | rfl |
        rfl | rfl | rfl | rfl | rfl | rfl | rfl | rfl | rfl | rfl | rfl
      all_goals exact hne _ (by decide)
    have ham : tableLookup AM_FRAME_COLUMN_MAPPING n = none := by
      apply tableLookup_eq_none
      intro kv hkv
      rw [AM_FRAME_COLUMN_MAPPING] at hkv
      simp only [List.mem_cons, List.not_mem_nil, or_false] at hkv
      rcases hkv with rfl | rfl | rfl | rfl | rfl | rfl | rfl | rfl | rfl |
        rfl | rfl | rfl | rfl | rfl | rfl | rfl | rfl | rfl | rfl | rfl
      all_goals exact hne _ (by decide)
    rw [get_grid_layout, get_columns, hrr, ham]

/-- C9 witness. At the common frame count 64 both resolvers agree. -/
theorem grid_layout_tables_agree_witness : get_grid_layout 64 = get_columns 64 :=
  grid_layout_tables_agree 64 (by decide) (by decide)

/-- C2 counterexample. With a 9000-pixel-tall frame (so
`maxDimension // frameHeight < 1`), `reduce_rotation.find_split_layout`
does not raise: it returns `None`, the same value that signals "no split
needed" to its callers, contradicting the claim that the planner always
fails with `FrameTooLarge` in this situation. -/
theorem rr_none_when_frame_too_large_cex :
    rr_find_split_layout 4 64 9000 = none ∧ MAX_DIMENSION / 9000 < 1 := by
  decide

/-- C2 amended. When a single frame exceeds `MAX_DIMENSION` on an axis,
`auto_merge_sprites.find_split_layout` raises the frame-too-large
`ValueError`, while `reduce_rotation.find_split_layout` instead returns
`None` — indistinguishable from "no split needed" — and never a plan. -/
theorem split_planner_frame_too_large (n w h : Nat) (one_row : Bool)
    (rl : Option Nat)
    (hbig : MAX_DIMENSION / w < 1 ∨ MAX_DIMENSION / h < 1) :
    am_find_split_layout n w h one_row rl = Except.error AM_FRAME_TOO_LARGE ∧
    rr_find_split_layout n w h = none := by
  constructor
  · simp only [am_find_split_layout]
    rw [if_pos hbig]
  · simp only [rr_find_split_layout]
    rw [if_pos hbig]

/-- C2 witness. Concrete instance of the amended claim at a 64 × 9000
frame. -/
theorem split_planner_frame_too_large_witness :
    am_find_split_layout 4 64 9000 false none
        = Except.error AM_FRAME_TOO_LARGE ∧
    rr_find_split_layout 4 64 9000 = none :=
  split_planner_frame_too_large 4 64 9000 false none (by decide)

/-- C1 counterexample. At 2 frames of 9000 × 64 pixels the natural layout
(2 columns of width 9000) does not fit `MAX_DIMENSION`, yet
`reduce_rotation.find_split_layout` returns `None` ("no split needed"),
refuting the claim that `None` occurs only when the natural layout fits. -/
theorem rr_split_none_without_fit_cex :
    rr_find_split_layout 2 9000 64 = none ∧
    ¬(get_grid_layout 2 * 9000 ≤ MAX_DIMENSION ∧
      ceil_div 2 (get_grid_layout 2) * 64 ≤ MAX_DIMENSION) := by
  decide

/-- Natural single-file layout of `auto_merge_sprites.process_component`
(lines 194-203): a fixed `row_length` wins, else `is_one_row` puts every
frame on one row, else the resolver column count with ceiling rows. -/
def am_full_layout (frame_count : Nat) (is_one_row : Bool)
    (row_length : Option Nat) : Nat × Nat :=
  match row_length with
  | some rl => (rl, ceil_div frame_count rl)
  | none =>
    match is_one_row with
    | true => (frame_count, 1)
    | false =>
      (get_columns frame_count, ceil_div frame_count (get_columns frame_count))

/-- Soundness of the free-grid divisor search shared by both planners: any
returned plan respects divisibility, strict reduction and both pixel
bounds. -/
theorem splitSearch_sound {n w h mc mr nf cols rows : Nat} (hn : 1 ≤ n)
    (hres : firstSome (splitTryFramesPerFile n w h mc mr) (get_divisors n)
      = some (nf, cols, rows)) :
    (cols * rows) ∣ n ∧ cols * rows < n ∧
    cols * w ≤ MAX_DIMENSION ∧ rows * h ≤ MAX_DIMENSION := by
  rcases firstSome_eq_some hres with ⟨fpf, hfpfmem, htry⟩
  rcases get_divisors_sound hfpfmem with ⟨hfdvd, hfpos⟩
  simp only [splitTryFramesPerFile] at htry
  by_cases hfe : fpf = n
  · rw [if_pos hfe] at htry
    exact absurd htry (by simp)
  · rw [if_neg hfe] at htry
    rcases firstSome_eq_some htry with ⟨c0, hc0mem, hcheck⟩
    simp only [splitColsCheck] at hcheck
    by_cases hmod : fpf % (c0 + 1) ≠ 0
    · rw [if_pos hmod] at hcheck
      exact absurd hcheck (by simp)
    · rw [if_neg hmod] at hcheck
      push_neg at hmod
      by_cases hrows : fpf / (c0 + 1) ≤ mr
      · rw [if_pos hrows] at hcheck
        by_cases hbnd : (c0 + 1) * w ≤ MAX_DIMENSION ∧
            fpf / (c0 + 1) * h ≤ MAX_DIMENSION
        · rw [if_pos hbnd] at hcheck
          injection hcheck with hpair
          injection hpair with h1 h2
          injection h2 with h2 h3
          subst h2
          subst h3
          have hdvdc : (c0 + 1) ∣ fpf := Nat.dvd_of_mod_eq_zero hmod
          have hcr : (c0 + 1) * (fpf / (c0 + 1)) = fpf :=
            Nat.mul_div_cancel' hdvdc
          rw [hcr]
          refine ⟨hfdvd, ?_, hbnd.1, hbnd.2⟩
          have := Nat.le_of_dvd (by omega) hfdvd
          omega
        · rw [if_neg hbnd] at hcheck
          exact absurd hcheck (by simp)
      · rw [if_neg hrows] at hcheck
        exact absurd hcheck (by simp)

/-- When `reduce_rotation.find_split_layout` reports no split, either a
single frame is too large (its early `None` return) or the natural grid
layout fits both axes. -/
theorem rr_split_none_cases (n w h : Nat) (hn : 1 ≤ n) (hw : 1 ≤ w)
    (hh : 1 ≤ h) (hnone : rr_find_split_layout n w h = none) :
    (MAX_DIMENSION / w < 1 ∨ MAX_DIMENSION / h < 1) ∨
    (get_grid_layout n * w ≤ MAX_DIMENSION ∧
      ceil_div n (get_grid_layout n) * h ≤ MAX_DIMENSION) := by
  by_cases hbig : MAX_DIMENSION / w < 1 ∨ MAX_DIMENSION / h < 1
  · exact Or.inl hbig
  · by_cases hfit : get_grid_layout n * w ≤ MAX_DIMENSION ∧
        ceil_div n (get_grid_layout n) * h ≤ MAX_DIMENSION
    · exact Or.inr hfit
    · exfalso
      have hres : rr_find_split_layout n w h =
          firstSome
            (splitTryFramesPerFile n w h (MAX_DIMENSION / w)
              (MAX_DIMENSION / h))
            (get_divisors n) := by
        simp only [rr_find_split_layout]
        rw [if_neg hbig, if_neg hfit]
      rw [hres] at hnone
      push_neg at hbig
      have hw8 : w ≤ MAX_DIMENSION := by
        have := (Nat.le_div_iff_mul_le (by omega : 0 < w)).1 hbig.1
        omega
      have hh8 : h ≤ MAX_DIMENSION := by
        have := (Nat.le_div_iff_mul_le (by omega : 0 < h)).1 hbig.2
        omega
      by_cases hn1 : n = 1
      · apply hfit
        subst hn1
        have hgl : get_grid_layout 1 = 1 := by decide
        have hcd : ceil_div 1 1 = 1 := by decide
        rw [hgl, hcd]
        omega
      · have htry := firstSome_eq_none hnone 1 (one_mem_get_divisors hn)
        have hsc : splitColsCheck n 1 (MAX_DIMENSION / h) w h 0
            = some (n, 1, 1) := by
          simp [splitColsCheck, hbig.2, hw8, hh8]
        have htry1 : splitTryFramesPerFile n w h (MAX_DIMENSION / w)
            (MAX_DIMENSION / h) 1 = some (n, 1, 1) := by
          simp only [splitTryFramesPerFile]
          rw [if_neg (by omega : ¬(1 = n))]
          rw [Nat.min_eq_left hbig.1, show List.range 1 = [0] from by decide,
            firstSome, hsc]
        rw [htry1] at htry
        exact absurd htry (by simp)

/-- Any plan `reduce_rotation.find_split_layout` returns satisfies the
claimed guarantees. -/
theorem rr_split_some_sound (n w h : Nat) (hn : 1 ≤ n)
    {nf cols rows : Nat}
    (hsome : rr_find_split_layout n w h = some (nf, cols, rows)) :
    (cols * rows) ∣ n ∧ cols * rows < n ∧
    cols * w ≤ MAX_DIMENSION ∧ rows * h ≤ MAX_DIMENSION := by
  by_cases hbig : MAX_DIMENSION / w < 1 ∨ MAX_DIMENSION / h < 1
  · have hres : rr_find_split_layout n w h = none := by
      simp only [rr_find_split_layout]
      rw [if_pos hbig]
    rw [hres] at hsome
    exact absurd hsome (by simp)
  · by_cases hfit : get_grid_layout n * w ≤ MAX_DIMENSION ∧
        ceil_div n (get_grid_layout n) * h ≤ MAX_DIMENSION
    · have hres : rr_find_split_layout n w h = none := by
        simp only [rr_find_split_layout]
        rw [if_neg hbig, if_pos hfit]
      rw [hres] at hsome
      exact absurd hsome (by simp)
    · have hres : rr_find_split_layout n w h =
          firstSome
            (splitTryFramesPerFile n w h (MAX_DIMENSION / w)
              (MAX_DIMENSION / h))
            (get_divisors n) := by
        simp only [rr_find_split_layout]
        rw [if_neg hbig, if_neg hfit]
      rw [hres] at hsome
      exact splitSearch_sound hn hsome

/-- When `auto_merge_sprites.find_split_layout` reports no split, the
natural layout of its current mode fits both axes (no extra case: the
frame-too-large situation raises instead of returning `ok none`). -/
theorem am_split_ok_none_fits (n w h : Nat) (one_row : Bool)
    (rl : Option Nat) (hw : 1 ≤ w) (hh : 1 ≤ h)
    (hok : am_find_split_layout n w h one_row rl = Except.ok none) :
    (am_full_layout n one_row rl).1 * w ≤ MAX_DIMENSION ∧
    (am_full_layout n one_row rl).2 * h ≤ MAX_DIMENSION := by
  by_cases hbig : MAX_DIMENSION / w < 1 ∨ MAX_DIMENSION / h < 1
  · exfalso
    simp only [am_find_split_layout] at hok
    rw [if_pos hbig] at hok
    exact Except.noConfusion hok
  · have hmcr : 1 ≤ MAX_DIMENSION / w ∧ 1 ≤ MAX_DIMENSION / h := by
      push_neg at hbig
      omega
    have hh8 : h ≤ MAX_DIMENSION := by
      have := (Nat.le_div_iff_mul_le (by omega : 0 < h)).1 hmcr.2
      omega
    cases rl with
    | some r =>
      simp only [am_find_split_layout] at hok
      rw [if_neg hbig, if_neg (by simp)] at hok
      by_cases hfits : r * w ≤ MAX_DIMENSION ∧
          ceil_div n r * h ≤ MAX_DIMENSION
      · show r * w ≤ MAX_DIMENSION ∧ ceil_div n r * h ≤ MAX_DIMENSION
        exact hfits
      · exfalso
        rw [if_neg hfits] at hok
        by_cases hwide : MAX_DIMENSION < r * w
        · rw [if_pos hwide] at hok
          exact Except.noConfusion hok
        · rw [if_neg hwide] at hok
          cases hE : firstSome (amFixedRowTry n h r) (get_divisors n) with
          | some p =>
            rw [hE] at hok
            injection hok with h2
            exact Option.noConfusion h2
          | none =>
            rw [hE] at hok
            exact Except.noConfusion hok
    | none =>
      cases one_row with
      | true =>
        simp only [am_find_split_layout] at hok
        rw [if_neg hbig, if_pos (by simp)] at hok
        by_cases hfit1 : n ≤ MAX_DIMENSION / w
        · show n * w ≤ MAX_DIMENSION ∧ 1 * h ≤ MAX_DIMENSION
          constructor
          · exact (Nat.le_div_iff_mul_le (by omega : 0 < w)).1 hfit1
          · rw [Nat.one_mul]
            exact hh8
        · exfalso
          rw [if_neg hfit1] at hok
          cases hE : firstSome
              (fun cpf => if cpf ≤ MAX_DIMENSION / w then some cpf else none)
              (get_divisors n) with
          | some cpf =>
            rw [hE] at hok
            injection hok with h2
            exact Option.noConfusion h2
          | none =>
            rw [hE] at hok
            injection hok with h2
            exact Option.noConfusion h2
      | false =>
        simp only [am_find_split_layout] at hok
        rw [if_neg hbig, if_neg (by simp)] at hok
        by_cases hfits : get_columns n * w ≤ MAX_DIMENSION ∧
            ceil_div n (get_columns n) * h ≤ MAX_DIMENSION
        · show get_columns n * w ≤ MAX_DIMENSION ∧
            ceil_div n (get_columns n) * h ≤ MAX_DIMENSION
          exact hfits
        · exfalso
          rw [if_neg hfits] at hok
          cases hE : firstSome
              (splitTryFramesPerFile n w h (MAX_DIMENSION / w)
                (MAX_DIMENSION / h))
              (get_divisors n) with
          | some p =>
            rw [hE] at hok
            injection hok with h2
            exact Option.noConfusion h2
          | none =>
            rw [hE] at hok
            exact Except.noConfusion hok

/-- Any plan `auto_merge_sprites.find_split_layout` returns — in any of
its three modes — satisfies the claimed guarantees. -/
theorem am_split_ok_some_sound (n w h : Nat) (one_row : Bool)
    (rl : Option Nat) (hn : 1 ≤ n) (hw : 1 ≤ w) (hh : 1 ≤ h)
    {nf cols rows : Nat}
    (hok : am_find_split_layout n w h one_row rl
      = Except.ok (some (nf, cols, rows))) :
    (cols * rows) ∣ n ∧ cols * rows < n ∧
    cols * w ≤ MAX_DIMENSION ∧ rows * h ≤ MAX_DIMENSION := by
  by_cases hbig : MAX_DIMENSION / w < 1 ∨ MAX_DIMENSION / h < 1
  · exfalso
    simp only [am_find_split_layout] at hok
    rw [if_pos hbig] at hok
    exact Except.noConfusion hok
  · have hmcr : 1 ≤ MAX_DIMENSION / w ∧ 1 ≤ MAX_DIMENSION / h := by
      push_neg at hbig
      omega
    have hw8 : w ≤ MAX_DIMENSION := by
      have := (Nat.le_div_iff_mul_le (by omega : 0 < w)).1 hmcr.1
      omega
    have hh8 : h ≤ MAX_DIMENSION := by
      have := (Nat.le_div_iff_mul_le (by omega : 0 < h)).1 hmcr.2
      omega
    cases rl with
    | some r =>
      simp only [am_find_split_layout] at hok
      rw [if_neg hbig, if_neg (by simp)] at hok
      by_cases hfits : r * w ≤ MAX_DIMENSION ∧
          ceil_div n r * h ≤ MAX_DIMENSION
      · rw [if_pos hfits] at hok
        injection hok with h2
        exact Option.noConfusion h2
      · rw [if_neg hfits] at hok
        by_cases hwide : MAX_DIMENSION < r * w
        · rw [if_pos hwide] at hok
          exact Except.noConfusion hok
        · rw [if_neg hwide] at hok
          cases hE : firstSome (amFixedRowTry n h r) (get_divisors n) with
          | none =>
            rw [hE] at hok
            exact Except.noConfusion hok
          | some p =>
            rw [hE] at hok
            injection hok with h2
            injection h2 with h2
            subst h2
            rcases firstSome_eq_some hE with ⟨fpf, hmem, htry⟩
            rcases get_divisors_sound hmem with ⟨hdvd, hpos⟩
            simp only [amFixedRowTry] at htry
            by_cases hfe : fpf = n
            · rw [if_pos hfe] at htry
              exact absurd htry (by simp)
            · rw [if_neg hfe] at htry
              by_cases hmod : fpf % r ≠ 0
              · rw [if_pos hmod] at htry
                exact absurd htry (by simp)
              · rw [if_neg hmod] at htry
                push_neg at hmod
                by_cases hrh : fpf / r * h ≤ MAX_DIMENSION
                · rw [if_pos hrh] at htry
                  injection htry with hpair
                  injection hpair with h1 h2
                  injection h2 with h2 h3
                  subst h2
                  subst h3
                  have hdvdr : r ∣ fpf := Nat.dvd_of_mod_eq_zero hmod
                  have hcr : r * (fpf / r) = fpf := Nat.mul_div_cancel' hdvdr
                  rw [hcr]
                  refine ⟨hdvd, ?_, by omega, hrh⟩
                  have := Nat.le_of_dvd (by omega) hdvd
                  omega
                · rw [if_neg hrh] at htry
                  exact absurd htry (by simp)
    | none =>
      cases one_row with
      | true =>
        simp only [am_find_split_layout] at hok
        rw [if_neg hbig, if_pos (by simp)] at hok
        by_cases hfit1 : n ≤ MAX_DIMENSION / w
        · rw [if_pos hfit1] at hok
          injection hok with h2
          exact Option.noConfusion h2
        · rw [if_neg hfit1] at hok
          push_neg at hfit1
          cases hE : firstSome
              (fun cpf => if cpf ≤ MAX_DIMENSION / w then some cpf else none)
              (get_divisors n) with
          | some cpf =>
            rw [hE] at hok
            simp only [Except.ok.injEq, Option.some.injEq,
              Prod.mk.injEq] at hok
            obtain ⟨h1, h2, h3⟩ := hok
            subst h2
            subst h3
            rcases firstSome_eq_some hE with ⟨c, hcmem, hcf⟩
            by_cases hcle : c ≤ MAX_DIMENSION / w
            · rw [if_pos hcle] at hcf
              injection hcf with hceq
              subst hceq
              rcases get_divisors_sound hcmem with ⟨hcdvd, hcpos⟩
              refine ⟨?_, ?_, ?_, ?_⟩
              · rw [Nat.mul_one]
                exact hcdvd
              · rw [Nat.mul_one]
                omega
              · exact (Nat.le_div_iff_mul_le (by omega : 0 < w)).1 hcle
              · rw [Nat.one_mul]
                exact hh8
            · rw [if_neg hcle] at hcf
              exact absurd hcf (by simp)
          | none =>
            rw [hE] at hok
            simp only [Except.ok.injEq, Option.some.injEq,
              Prod.mk.injEq] at hok
            obtain ⟨h1, h2, h3⟩ := hok
            subst h2
            subst h3
            refine ⟨?_, ?_, ?_, ?_⟩
            · rw [Nat.mul_one]
              exact one_dvd n
            · rw [Nat.mul_one]
              omega
            · rw [Nat.one_mul]
              exact hw8
            · rw [Nat.one_mul]
              exact hh8
      | false =>
        simp only [am_find_split_layout] at hok
        rw [if_neg hbig, if_neg (by simp)] at hok
        by_cases hfits : get_columns n * w ≤ MAX_DIMENSION ∧
            ceil_div n (get_columns n) * h ≤ MAX_DIMENSION
        · rw [if_pos hfits] at hok
          injection hok with h2
          exact Option.noConfusion h2
        · rw [if_neg hfits] at hok
          cases hE : firstSome
              (splitTryFramesPerFile n w h (MAX_DIMENSION / w)
                (MAX_DIMENSION / h))
              (get_divisors n) with
          | none =>
            rw [hE] at hok
            exact Except.noConfusion hok
          | some p =>
            rw [hE] at hok
            injection hok with h2
            injection h2 with h2
            subst h2
            exact splitSearch_sound hn hE

/-- C1 amended. Both embeddings of the SplitPlanner are covered. For
positive inputs, `auto_merge_sprites.find_split_layout` satisfies the
claim as stated in every mode: it answers "no split needed" only when the
natural full layout of its mode fits `MAX_DIMENSION` on both axes, and
any plan `(numFiles, cols, rows)` it returns satisfies
`cols * rows ∣ frameCount`, `cols * rows < frameCount`,
`cols * frameWidth ≤ MAX_DIMENSION` and
`rows * frameHeight ≤ MAX_DIMENSION`. `reduce_rotation.find_split_layout`
gives the same plan guarantees, but returns `None` either when the
natural layout fits or when a single frame already exceeds
`MAX_DIMENSION` on an axis (the case the claim overlooked for this
file). -/
theorem find_split_layout_spec (n w h : Nat) (one_row : Bool)
    (rl : Option Nat) (hn : 1 ≤ n) (hw : 1 ≤ w) (hh : 1 ≤ h) :
    (rr_find_split_layout n w h = none →
      (MAX_DIMENSION / w < 1 ∨ MAX_DIMENSION / h < 1) ∨
      (get_grid_layout n * w ≤ MAX_DIMENSION ∧
        ceil_div n (get_grid_layout n) * h ≤ MAX_DIMENSION)) ∧
    (∀ num_files cols rows,
      rr_find_split_layout n w h = some (num_files, cols, rows) →
      (cols * rows) ∣ n ∧ cols * rows < n ∧
      cols * w ≤ MAX_DIMENSION ∧ rows * h ≤ MAX_DIMENSION) ∧
    (am_find_split_layout n w h one_row rl = Except.ok none →
      (am_full_layout n one_row rl).1 * w ≤ MAX_DIMENSION ∧
      (am_full_layout n one_row rl).2 * h ≤ MAX_DIMENSION) ∧
    (∀ num_files cols rows,
      am_find_split_layout n w h one_row rl
          = Except.ok (some (num_files, cols, rows)) →
      (cols * rows) ∣ n ∧ cols * rows < n ∧
      cols * w ≤ MAX_DIMENSION ∧ rows * h ≤ MAX_DIMENSION) :=
  ⟨rr_split_none_cases n w h hn hw hh,
   fun _ _ _ hsome => rr_split_some_sound n w h hn hsome,
   am_split_ok_none_fits n w h one_row rl hw hh,
   fun _ _ _ hsome => am_split_ok_some_sound n w h one_row rl hn hw hh hsome⟩

set_option maxRecDepth 4000 in
/-- C1 witness. At 512 frames of 1000 × 1000 pixels the reduce-rotation
planner returns the plan `(8 files, 8 × 8)` with its guarantees; at 5
one-row frames of 1000 × 1000 pixels the auto-merge planner answers "no
split needed" and the natural `5 × 1` layout indeed fits. -/
theorem find_split_layout_spec_witness :
    (((8 : Nat) * 8) ∣ 512 ∧ (8 : Nat) * 8 < 512 ∧
      (8 : Nat) * 1000 ≤ MAX_DIMENSION ∧ (8 : Nat) * 1000 ≤ MAX_DIMENSION) ∧
    ((am_full_layout 5 true none).1 * 1000 ≤ MAX_DIMENSION ∧
      (am_full_layout 5 true none).2 * 1000 ≤ MAX_DIMENSION) :=
  ⟨(find_split_layout_spec 512 1000 1000 false none (by decide) (by decide)
      (by decide)).2.1 8 8 8 (by decide),
   (find_split_layout_spec 5 1000 1000 true none (by decide) (by decide)
      (by decide)).2.2.1 rfl⟩

/-- C3. For `n ≥ 1`, `skip ≥ 1`, `symmetric_indices n skip` equals the
ascending sort of the front picks (multiples of `skip` below `n / 2`)
united with their mirror positions `n - 1 - k`; in particular
`symmetric_indices 8 2 = [0, 2, 5, 7]` and
`symmetric_indices 4 1 = [0, 1, 2, 3]`. -/
theorem symmetric_indices_eq_sorted_union (n skip : Nat) (hn : 1 ≤ n)
    (hs : 1 ≤ skip) :
    symmetric_indices n skip =
      Finset.sort (· ≤ ·)
        (((Finset.range (n / 2)).filter (fun x => x % skip = 0)) ∪
          ((Finset.range (n / 2)).filter (fun x => x % skip = 0)).image
            (fun k => n - 1 - k)) ∧
    symmetric_indices 8 2 = [0, 2, 5, 7] ∧
    symmetric_indices 4 1 = [0, 1, 2, 3] := by
  refine ⟨?_, by decide, by decide⟩
  apply eq_of_sorted_lt_of_mem_iff
  · exact sorted_lt_of_sorted_le_nodup (sorted_sortAsc _)
      (nodup_symmetric_indices n skip hs)
  · exact sorted_lt_of_sorted_le_nodup (Finset.sort_sorted _ _)
      (Finset.sort_nodup _ _)
  · intro x
    rw [Finset.mem_sort, mem_symmetric_indices hs, Finset.mem_union,
      Finset.mem_filter, Finset.mem_range, Finset.mem_image]
    constructor
    · rintro (⟨hd, hlt⟩ | ⟨i, hd, hlt, rfl⟩)
      · exact Or.inl ⟨hlt, Nat.dvd_iff_mod_eq_zero.1 hd⟩
      · refine Or.inr ⟨i, ?_, rfl⟩
        rw [Finset.mem_filter, Finset.mem_range]
        exact ⟨hlt, Nat.dvd_iff_mod_eq_zero.1 hd⟩
    · rintro (⟨hlt, hmod⟩ | ⟨i, hi, rfl⟩)
      · exact Or.inl ⟨Nat.dvd_iff_mod_eq_zero.2 hmod, hlt⟩
      · rw [Finset.mem_filter, Finset.mem_range] at hi
        exact Or.inr ⟨i, Nat.dvd_iff_mod_eq_zero.2 hi.2, hi.1, rfl⟩

/-- C3 witness. The general equation instantiated at `n = 8`, `skip = 2`. -/
theorem symmetric_indices_eq_sorted_union_witness :
    symmetric_indices 8 2 =
      Finset.sort (· ≤ ·)
        (((Finset.range (8 / 2)).filter (fun x => x % 2 = 0)) ∪
          ((Finset.range (8 / 2)).filter (fun x => x % 2 = 0)).image
            (fun k => 8 - 1 - k)) ∧
    symmetric_indices 8 2 = [0, 2, 5, 7] ∧
    symmetric_indices 4 1 = [0, 1, 2, 3] :=
  symmetric_indices_eq_sorted_union 8 2 (by decide) (by decide)

/-- C10. For `n ≥ 1` and `skip ≥ 1` the symmetric selection is strictly
ascending and duplicate-free, and for odd `n` the middle index `n / 2` is
never selected. -/
theorem symmetric_indices_sorted_nodup_middle (n skip : Nat) (hn : 1 ≤ n)
    (hs : 1 ≤ skip) :
    List.Sorted (· < ·) (symmetric_indices n skip) ∧
    (symmetric_indices n skip).Nodup ∧
    (n % 2 = 1 → n / 2 ∉ symmetric_indices n skip) := by
  have hnd := nodup_symmetric_indices n skip hs
  refine ⟨sorted_lt_of_sorted_le_nodup (sorted_sortAsc _) hnd, hnd, ?_⟩
  intro hodd hmem
  rcases (mem_symmetric_indices hs).1 hmem with ⟨_, hlt⟩ | ⟨i, _, hlt, heq⟩
  · omega
  · omega

/-- C10 witness. The invariants instantiated at `n = 7`, `skip = 2` (odd
length, so the middle index 3 is also checked). -/
theorem symmetric_indices_sorted_nodup_middle_witness :
    List.Sorted (· < ·) (symmetric_indices 7 2) ∧
    (symmetric_indices 7 2).Nodup ∧
    7 / 2 ∉ symmetric_indices 7 2 := by
  have h := symmetric_indices_sorted_nodup_middle 7 2 (by decide) (by decide)
  exact ⟨h.1, h.2.1, h.2.2 (by decide)⟩

section ConcatMapLemmas

/-- Membership in a loop-built concatenation. -/
theorem mem_concatMapList {α β : Type} {f : α → List β} {x : β} :
    ∀ {l : List α}, x ∈ concatMapList f l ↔ ∃ a ∈ l, x ∈ f a := by
  intro l
  induction l with
  | nil => simp [concatMapList]
  | cons y ys ih =>
    rw [concatMapList, List.mem_append, ih]
    constructor
    · rintro (h | ⟨a, ha, hx⟩)
      · exact ⟨y, List.mem_cons_self y ys, h⟩
      · exact ⟨a, List.mem_cons_of_mem y ha, hx⟩
    · rintro ⟨a, ha, hx⟩
      rcases List.mem_cons.1 ha with rfl | ha
      · exact Or.inl hx
      · exact Or.inr ⟨a, ha, hx⟩

/-- The loop-built concatenation distributes over append. -/
theorem concatMapList_append {α β : Type} (f : α → List β) :
    ∀ (l₁ l₂ : List α),
      concatMapList f (l₁ ++ l₂) = concatMapList f l₁ ++ concatMapList f l₂ := by
  intro l₁ l₂
  induction l₁ with
  | nil => simp [concatMapList]
  | cons y ys ih =>
    rw [List.cons_append, concatMapList, concatMapList, ih, List.append_assoc]

end ConcatMapLemmas

/-- Every in-group offset the rotation rule keeps is below the group size. -/
theorem keepWithinRotation_lt {apr skip a : Nat} {symmetric : Bool}
    (hskip : 1 ≤ skip) (ha : a ∈ keepWithinRotation apr skip symmetric) :
    a < apr := by
  rw [keepWithinRotation] at ha
  cases symmetric with
  | true =>
    rw [if_pos rfl] at ha
    exact mem_symmetric_indices_lt hskip ha
  | false =>
    rw [if_neg (by simp)] at ha
    exact ((mem_rangeStep hskip).1 ha).2

/-- C4. `compute_selected_indices` realises the two group policies as the
specification words them: rotation mode applies the linear or symmetric
rule inside each contiguous direction group offset by the group base and
concatenates in group order; animation mode keeps every `skip`-th group
wholesale and drops the rest; and (under the divisibility the grouping
presumes) every selected index stays inside `[0, totalFrames)`. -/
theorem compute_selected_indices_group_policies
    (total skip apr rots : Nat) (symmetric : Bool)
    (hskip : 1 ≤ skip) (hapr : 1 ≤ apr) (hrots : 1 ≤ rots)
    (hdvd1 : apr ∣ total) (hdvd2 : rots ∣ total) :
    compute_selected_indices total skip SkipType.rotation none (some apr)
        symmetric = Except.ok (perDirectionSelectSpec total apr skip symmetric) ∧
    compute_selected_indices total skip SkipType.animation (some rots) none
        symmetric = Except.ok (directionSkipSelectSpec total rots skip) ∧
    (∀ x ∈ perDirectionSelectSpec total apr skip symmetric, x < total) ∧
    (∀ x ∈ directionSkipSelectSpec total rots skip, x < total) := by
  have hinner : keepWithinRotation apr skip symmetric
      = (if symmetric then symmetric_indices apr skip
         else linearRuleSpec apr skip) := by
    cases symmetric with
    | true => rw [keepWithinRotation, if_pos rfl, if_pos rfl]
    | false =>
      rw [keepWithinRotation, if_neg (by simp), if_neg (by simp),
        linearRuleSpec, rangeStep_eq_filter apr skip hskip]
  refine ⟨?_, ?_, ?_, ?_⟩
  · show Except.ok (rotationSelect total apr skip symmetric) = _
    rw [rotationSelect, perDirectionSelectSpec, hinner]
  · show Except.ok (animationSelect total rots skip) = _
    rw [animationSelect, directionSkipSelectSpec,
      rangeStep_eq_filter rots skip hskip]
  · intro x hx
    rw [perDirectionSelectSpec, mem_concatMapList] at hx
    rcases hx with ⟨g, hg, hx⟩
    rw [List.mem_range] at hg
    rw [List.mem_map] at hx
    rcases hx with ⟨a, ha, rfl⟩
    have ha' : a < apr := by
      rw [← hinner] at ha
      exact keepWithinRotation_lt hskip ha
    have h1 : (g + 1) * apr ≤ (total / apr) * apr :=
      Nat.mul_le_mul_right apr (by omega)
    rw [Nat.div_mul_cancel hdvd1, Nat.succ_mul] at h1
    omega
  · intro x hx
    rw [directionSkipSelectSpec, mem_concatMapList] at hx
    rcases hx with ⟨g, hg, hx⟩
    rw [List.mem_filter, List.mem_range] at hg
    rw [List.mem_map] at hx
    rcases hx with ⟨a, ha, rfl⟩
    rw [List.mem_range] at ha
    have h1 : (g + 1) * (total / rots) ≤ rots * (total / rots) :=
      Nat.mul_le_mul_right (total / rots) (by omega)
    rw [Nat.mul_div_cancel' hdvd2, Nat.succ_mul] at h1
    omega

/-- C4 witness. Both mode equations instantiated at 8 frames in 2 groups
of 4 with skip 2. -/
theorem compute_selected_indices_group_policies_witness :
    compute_selected_indices 8 2 SkipType.rotation none (some 4) false
        = Except.ok (perDirectionSelectSpec 8 4 2 false) ∧
    compute_selected_indices 8 2 SkipType.animation (some 4) none false
        = Except.ok (directionSkipSelectSpec 8 4 2) := by
  have h := compute_selected_indices_group_policies 8 2 4 4 false (by decide)
    (by decide) (by decide) (by decide) (by decide)
  exact ⟨h.1, h.2.1⟩

/-- Dividing every selected index of the rotation-mode selection by the
group size gives exactly the output row indices when the composer uses
the per-group retained count as the column count. -/
theorem rotationSelect_div_map (apr skip : Nat) (symmetric : Bool)
    (hapr : 1 ≤ apr) (hskip : 1 ≤ skip)
    (hk : 1 ≤ (keepWithinRotation apr skip symmetric).length) :
    ∀ m,
      (concatMapList
        (fun r => (keepWithinRotation apr skip symmetric).map
          (fun a => r * apr + a))
        (List.range m)).map (fun x => x / apr)
      = (List.range (m * (keepWithinRotation apr skip symmetric).length)).map
          (fun p => p / (keepWithinRotation apr skip symmetric).length) := by
  intro m
  induction m with
  | zero => simp [concatMapList]
  | succ m ih =>
    rw [List.range_succ, concatMapList_append, List.map_append, ih]
    rw [concatMapList, concatMapList, List.append_nil]
    rw [Nat.succ_mul, List.range_add, List.map_append, List.map_map,
      List.map_map]
    congr 1
    have hleft : ((keepWithinRotation apr skip symmetric).map
        (fun a => m * apr + a)).map (fun x => x / apr)
        = List.replicate (keepWithinRotation apr skip symmetric).length m := by
      rw [List.map_map, List.eq_replicate_iff]
      refine ⟨by rw [List.length_map], ?_⟩
      intro b hb
      rw [List.mem_map] at hb
      rcases hb with ⟨a, ha, rfl⟩
      have halt : a < apr := keepWithinRotation_lt hskip ha
      show (m * apr + a) / apr = m
      rw [Nat.mul_comm m apr, Nat.mul_add_div (by omega : 0 < apr),
        Nat.div_eq_of_lt halt]
      omega
    have hright : (List.range (keepWithinRotation apr skip symmetric).length).map
        ((fun p => p / (keepWithinRotation apr skip symmetric).length) ∘
          (fun x => m * (keepWithinRotation apr skip symmetric).length + x))
        = List.replicate (keepWithinRotation apr skip symmetric).length m := by
      rw [List.eq_replicate_iff]
      refine ⟨by rw [List.length_map, List.length_range], ?_⟩
      intro b hb
      rw [List.mem_map] at hb
      rcases hb with ⟨j, hj, rfl⟩
      rw [List.mem_range] at hj
      show (m * (keepWithinRotation apr skip symmetric).length + j) /
          (keepWithinRotation apr skip symmetric).length = m
      rw [Nat.mul_comm, Nat.mul_add_div (by omega), Nat.div_eq_of_lt hj]
      omega
    rw [hright]
    rw [List.map_map] at hleft
    exact hleft.trans rfl
  
/-- C5. Under rotation mode with the group size dividing the total, the
composer in `reduce_single` picks `new_cols` equal to the number of
frames retained per direction group, and with that column count the
output row index `p / new_cols` of every selected frame coincides with
the index of the original direction group it came from — no output row
mixes frames from two groups. -/
theorem rotation_mode_row_purity (total apr skip : Nat) (symmetric : Bool)
    (hapr : 1 ≤ apr) (hskip : 1 ≤ skip) (hdvd : apr ∣ total)
    (hk : 1 ≤ rr_new_cols_rotation apr skip symmetric) :
    rr_new_cols_rotation apr skip symmetric
        = (keepWithinRotation apr skip symmetric).length ∧
    (rotationSelect total apr skip symmetric).map (fun x => x / apr)
      = (List.range (rotationSelect total apr skip symmetric).length).map
          (fun p => p / rr_new_cols_rotation apr skip symmetric) := by
  refine ⟨rfl, ?_⟩
  have hmain := rotationSelect_div_map apr skip symmetric hapr hskip hk
    (total / apr)
  have hlen : (rotationSelect total apr skip symmetric).length
      = (total / apr) * (keepWithinRotation apr skip symmetric).length := by
    have := congrArg List.length hmain
    rw [List.length_map, List.length_map, List.length_range] at this
    exact this
  rw [rr_new_cols_rotation, hlen, rotationSelect]
  exact hmain

/-- C5 witness. Row purity instantiated at 8 frames, 2 groups of 4,
symmetric skip 2 (each group keeps offsets 0 and 3). -/
theorem rotation_mode_row_purity_witness :
    rr_new_cols_rotation 4 2 true = (keepWithinRotation 4 2 true).length ∧
    (rotationSelect 8 4 2 true).map (fun x => x / 4)
      = (List.range (rotationSelect 8 4 2 true).length).map
          (fun p => p / rr_new_cols_rotation 4 2 true) :=
  rotation_mode_row_purity 8 4 2 true (by decide) (by decide) (by decide)
    (by decide)

/-- C6. `regroup_files` fails with the frame-size-mismatch error as soon
as some input file's frame geometry differs from the first file's; the
error result carries no output, so nothing is extracted, composed or
written. -/
theorem regroup_files_mismatch_error (first : FileResult)
    (rest : List FileResult) (fpr : Option Nat)
    (h : ∃ f ∈ rest, f.fw ≠ first.fw ∨ f.fh ≠ first.fh) :
    regroup_files fpr (first :: rest)
      = Except.error "Frame size mismatch in regroup" := by
  have hany : rest.any (fun f => f.fw != first.fw || f.fh != first.fh)
      = true := by
    rw [List.any_eq_true]
    rcases h with ⟨f, hf, hne⟩
    refine ⟨f, hf, ?_⟩
    simp only [Bool.or_eq_true, bne_iff_ne]
    exact hne
  simp only [regroup_files]
  rw [if_pos hany]

/-- Sample regroup input: a 64 × 64 sheet of one 64 × 64 frame. -/
def regroupSampleA : FileResult :=
  { img := newImg 64 64, fw := 64, fh := 64, count := 1 }

/-- Sample regroup input with a different frame geometry (32 × 32). -/
def regroupSampleB : FileResult :=
  { img := newImg 32 32, fw := 32, fh := 32, count := 1 }

/-- C6 witness. Regrouping a 64 × 64-frame file with a 32 × 32-frame file
aborts with the mismatch error. -/
theorem regroup_files_mismatch_error_witness :
    regroup_files none [regroupSampleA, regroupSampleB]
      = Except.error "Frame size mismatch in regroup" :=
  regroup_files_mismatch_error regroupSampleA [regroupSampleB] none
    ⟨regroupSampleB, List.mem_cons_self _ _, Or.inl (by decide)⟩

/-- Ownership of the point `(u, v)` by the row-major grid cell of frame
index `j` (cell `(j % cols, j / cols)`, each cell `fw × fh` pixels). -/
def cellOwns (cols fw fh j u v : Nat) : Prop :=
  (j % cols) * fw ≤ u ∧ u < (j % cols) * fw + fw ∧
  (j / cols) * fh ≤ v ∧ v < (j / cols) * fh + fh

/-- A pixel owned by no pasted cell keeps the canvas value. -/
theorem pasteFramesFrom_px_out (cols fw fh : Nat) :
    ∀ (frames : List Img) (k : Nat) (canvas : Img) (u v : Nat),
      (∀ f ∈ frames, f.width = fw ∧ f.height = fh) →
      (∀ j, k ≤ j → j < k + frames.length → ¬cellOwns cols fw fh j u v) →
      (pasteFramesFrom canvas frames k cols fw fh).px u v = canvas.px u v := by
  intro frames
  induction frames with
  | nil =>
    intro k canvas u v _ _
    rfl
  | cons fr rest ih =>
    intro k canvas u v hsz hno
    rw [pasteFramesFrom]
    have hno2 : ∀ j, k + 1 ≤ j → j < (k + 1) + rest.length →
        ¬cellOwns cols fw fh j u v := by
      intro j hj1 hj2
      apply hno j (by omega)
      rw [List.length_cons]
      omega
    rw [ih (k + 1) _ u v (fun f hf => hsz f (List.mem_cons_of_mem fr hf)) hno2]
    simp only [pasteImg]
    rcases hsz fr (List.mem_cons_self fr rest) with ⟨hfw0, hfh0⟩
    rw [hfw0, hfh0]
    rw [if_neg]
    intro hcon
    apply hno k (le_refl k) (by rw [List.length_cons]; omega)
    rw [cellOwns]
    exact hcon

/-- The pixel of the unique owning cell reads the pasted frame. -/
theorem pasteFramesFrom_px_in (cols fw fh : Nat) :
    ∀ (frames : List Img) (k : Nat) (canvas : Img) (i : Nat) (fr : Img)
      (u v : Nat),
      (∀ f ∈ frames, f.width = fw ∧ f.height = fh) →
      k ≤ i →
      frames[i - k]? = some fr →
      cellOwns cols fw fh i u v →
      (∀ j, k ≤ j → j < k + frames.length → cellOwns cols fw fh j u v →
        j = i) →
      (pasteFramesFrom canvas frames k cols fw fh).px u v
        = fr.px (u - (i % cols) * fw) (v - (i / cols) * fh) := by
  intro frames
  induction frames with
  | nil =>
    intro k canvas i fr u v _ _ hget _ _
    simp at hget
  | cons fr0 rest ih =>
    intro k canvas i fr u v hsz hki hget hown huniq
    rw [pasteFramesFrom]
    by_cases hik : i = k
    · subst hik
      rw [Nat.sub_self] at hget
      have hfr : fr0 = fr := by
        simpa using hget
      subst hfr
      have hno2 : ∀ j, i + 1 ≤ j → j < (i + 1) + rest.length →
          ¬cellOwns cols fw fh j u v := by
        intro j hj1 hj2 hc
        have := huniq j (by omega) (by rw [List.length_cons]; omega) hc
        omega
      rw [pasteFramesFrom_px_out cols fw fh rest (i + 1) _ u v
        (fun f hf => hsz f (List.mem_cons_of_mem fr0 hf)) hno2]
      simp only [pasteImg]
      rcases hsz fr0 (List.mem_cons_self fr0 rest) with ⟨hfw0, hfh0⟩
      rw [hfw0, hfh0]
      rw [cellOwns] at hown
      rw [if_pos hown]
    · have hki1 : k + 1 ≤ i := by omega
      have hget2 : rest[i - (k + 1)]? = some fr := by
        have hidx : i - k = (i - (k + 1)) + 1 := by omega
        rw [hidx] at hget
        simpa using hget
      have huniq2 : ∀ j, k + 1 ≤ j → j < (k + 1) + rest.length →
          cellOwns cols fw fh j u v → j = i := by
        intro j hj1 hj2 hc
        exact huniq j (by omega) (by rw [List.length_cons]; omega) hc
      exact ih (k + 1) _ i fr u v
        (fun f hf => hsz f (List.mem_cons_of_mem fr0 hf)) hki1 hget2 hown
        huniq2

/-- Distinct frame indices own disjoint cells: a point inside cell `i`
cannot be owned by cell `j` unless `j = i`. -/
theorem cell_owner_unique {cols fw fh i j dx dy : Nat} (hc : 1 ≤ cols)
    (hfw : 1 ≤ fw) (hfh : 1 ≤ fh) (hdx : dx < fw) (hdy : dy < fh)
    (hown : cellOwns cols fw fh j ((i % cols) * fw + dx)
      ((i / cols) * fh + dy)) : j = i := by
  rw [cellOwns] at hown
  have hx : j % cols = i % cols := by
    by_contra hne
    rcases Nat.lt_or_ge (j % cols) (i % cols) with hlt | hge
    · have hstep : (j % cols + 1) * fw ≤ (i % cols) * fw :=
        Nat.mul_le_mul_right fw (by omega)
      rw [Nat.succ_mul] at hstep
      omega
    · have hgt : i % cols < j % cols := by omega
      have hstep : (i % cols + 1) * fw ≤ (j % cols) * fw :=
        Nat.mul_le_mul_right fw (by omega)
      rw [Nat.succ_mul] at hstep
      omega
  have hy : j / cols = i / cols := by
    by_contra hne
    rcases Nat.lt_or_ge (j / cols) (i / cols) with hlt | hge
    · have hstep : (j / cols + 1) * fh ≤ (i / cols) * fh :=
        Nat.mul_le_mul_right fh (by omega)
      rw [Nat.succ_mul] at hstep
      omega
    · have hgt : i / cols < j / cols := by omega
      have hstep : (i / cols + 1) * fh ≤ (j / cols) * fh :=
        Nat.mul_le_mul_right fh (by omega)
      rw [Nat.succ_mul] at hstep
      omega
  have hi := Nat.div_add_mod i cols
  have hj := Nat.div_add_mod j cols
  rw [hx, hy] at hj
  omega

/-- Helper for the extraction loop: when every cell origin is in bounds,
the guarded singleton collection is a plain map. -/
theorem concatMapList_guard_eq_map (img : Img) (cols fw fh : Nat) :
    ∀ l : List Nat,
      (∀ i ∈ l, (i % cols) * fw < img.width ∧ (i / cols) * fh < img.height) →
      concatMapList
        (fun i =>
          let x := (i % cols) * fw
          let y := (i / cols) * fh
          if x < img.width ∧ y < img.height then [cropImg img x y fw fh]
          else []) l
      = l.map (fun i => cropImg img ((i % cols) * fw) ((i / cols) * fh) fw fh) := by
  intro l
  induction l with
  | nil =>
    intro _
    rfl
  | cons j js ih =>
    intro hg
    rw [concatMapList, List.map_cons]
    show (if (j % cols) * fw < img.width ∧ (j / cols) * fh < img.height
        then [cropImg img ((j % cols) * fw) ((j / cols) * fh) fw fh] else [])
        ++ _ = _
    rw [if_pos (hg j (List.mem_cons_self j js)),
      ih (fun a ha => hg a (List.mem_cons_of_mem j ha))]
    rfl

/-- Under a consistent grid, the guarded extraction loop of
`parse_spritesheet` degenerates to a plain row-major crop of every cell. -/
theorem extractFrames_eq_map (img : Img) (cols rows total fw fh : Nat)
    (hc : 1 ≤ cols) (hfw : 1 ≤ fw) (hfh : 1 ≤ fh)
    (hW : img.width = cols * fw) (hH : img.height = rows * fh)
    (htot : total ≤ cols * rows) :
    extractFrames img cols total fw fh
      = (List.range total).map
          (fun i => cropImg img ((i % cols) * fw) ((i / cols) * fh) fw fh) := by
  have hguard : ∀ i ∈ List.range total,
      (i % cols) * fw < img.width ∧ (i / cols) * fh < img.height := by
    intro i hi
    rw [List.mem_range] at hi
    constructor
    · rw [hW]
      exact (Nat.mul_lt_mul_right (by omega : 0 < fw)).2
        (Nat.mod_lt i (by omega))
    · rw [hH]
      refine (Nat.mul_lt_mul_right (by omega : 0 < fh)).2 ?_
      refine (Nat.div_lt_iff_lt_mul (by omega : 0 < cols)).2 ?_
      have hcomm : cols * rows = rows * cols := Nat.mul_comm cols rows
      omega
  exact concatMapList_guard_eq_map img cols fw fh (List.range total) hguard

/-- C7. Extract–compose round trip: slicing `frameCount ≤ cols * rows`
frames out of a `cols·fw × rows·fh` canvas in row-major order and pasting
them back at the same cells of a fresh transparent canvas of the same
grid reproduces every pixel of every populated cell exactly. -/
theorem extract_compose_roundtrip (img : Img) (cols rows fw fh fc : Nat)
    (hc : 1 ≤ cols) (hfw : 1 ≤ fw) (hfh : 1 ≤ fh)
    (hW : img.width = cols * fw) (hH : img.height = rows * fh)
    (hfc : fc ≤ cols * rows)
    (i dx dy : Nat) (hi : i < fc) (hdx : dx < fw) (hdy : dy < fh) :
    (composeSheet (extractFrames img cols fc fw fh) cols rows fw fh).px
        ((i % cols) * fw + dx) ((i / cols) * fh + dy)
      = img.px ((i % cols) * fw + dx) ((i / cols) * fh + dy) := by
  rw [extractFrames_eq_map img cols rows fc fw fh hc hfw hfh hW hH hfc]
  rw [composeSheet]
  have hsz : ∀ f ∈ (List.range fc).map
      (fun j => cropImg img ((j % cols) * fw) ((j / cols) * fh) fw fh),
      f.width = fw ∧ f.height = fh := by
    intro f hf
    rw [List.mem_map] at hf
    rcases hf with ⟨j, _, rfl⟩
    exact ⟨rfl, rfl⟩
  have hget : ((List.range fc).map
      (fun j => cropImg img ((j % cols) * fw) ((j / cols) * fh) fw fh))[i - 0]?
      = some (cropImg img ((i % cols) * fw) ((i / cols) * fh) fw fh) := by
    rw [Nat.sub_zero, List.getElem?_map, List.getElem?_range hi]
    rfl
  have hown : cellOwns cols fw fh i ((i % cols) * fw + dx)
      ((i / cols) * fh + dy) := by
    rw [cellOwns]
    refine ⟨Nat.le_add_right _ _, by omega, Nat.le_add_right _ _, by omega⟩
  have huniq : ∀ j, 0 ≤ j →
      j < 0 + ((List.range fc).map
        (fun j => cropImg img ((j % cols) * fw) ((j / cols) * fh) fw fh)).length →
      cellOwns cols fw fh j ((i % cols) * fw + dx) ((i / cols) * fh + dy) →
      j = i := by
    intro j _ _ hcell
    exact cell_owner_unique hc hfw hfh hdx hdy hcell
  rw [pasteFramesFrom_px_in cols fw fh _ 0 _ i _ _ _ hsz (Nat.zero_le i) hget
    hown huniq]
  rw [Nat.add_sub_cancel_left, Nat.add_sub_cancel_left]
  simp only [cropImg]
  rw [if_pos]
  refine ⟨hdx, hdy, ?_, ?_⟩
  · rw [hW]
    have hstep : (i % cols + 1) * fw ≤ cols * fw :=
      Nat.mul_le_mul_right fw (Nat.mod_lt i (by omega))
    rw [Nat.succ_mul] at hstep
    omega
  · rw [hH]
    have hrow : i / cols < rows := by
      refine (Nat.div_lt_iff_lt_mul (by omega : 0 < cols)).2 ?_
      have hcomm : cols * rows = rows * cols := Nat.mul_comm cols rows
      omega
    have hstep : (i / cols + 1) * fh ≤ rows * fh :=
      Nat.mul_le_mul_right fh hrow
    rw [Nat.succ_mul] at hstep
    omega

/-- Sample 2 × 1 spritesheet of 1 × 1 frames with distinct pixel values. -/
def sampleImg : Img :=
  { width := 2, height := 1, px := fun x y => (x + 1, y + 1, x + y, 255) }

/-- C7 witness. Extracting and recomposing the two cells of `sampleImg`
reproduces the pixel of cell 1. -/
theorem extract_compose_roundtrip_witness :
    (composeSheet (extractFrames sampleImg 2 2 1 1) 2 1 1 1).px
        (1 % 2 * 1 + 0) (1 / 2 * 1 + 0)
      = sampleImg.px (1 % 2 * 1 + 0) (1 / 2 * 1 + 0) :=
  extract_compose_roundtrip sampleImg 2 1 1 1 2 (by decide) (by decide)
    (by decide) rfl rfl (by decide) 1 0 0 (by decide) (by decide) (by decide)
